import Mathlib

/-!
Verification of the bitcoin_gains.py accounting engine.

This file embeds the core of `bitcoin_gains.py` (canonical transaction model,
lot model, disposal-policy comparators, the heap-driven cost-basis ledger,
transfer matching, the MtGox two-file normalizer bookkeeping, and the
fair-market-value price-feed loader) as executable Lean definitions, and
proves or refutes the specification claims about them.

Modeling conventions:
 - Python `Decimal` values are embedded as exact rationals `ℚ`;
   `Decimal.quantize` (which rounds half-to-even by default) is `roundd`.
 - `time.struct_time` timestamps are embedded as integers (seconds), which is
   how the program compares them (tuple comparison / `time.mktime`).
 - Fallible code (exceptions) is embedded as `Except String`.
 - The `heapq`-backed `Heap` is a list together with `popMin`, which removes
   a minimal element with respect to the comparator, the documented
   behaviour of `heapq.heappop`; `heapq.heappush` appends.
 - The unbounded `while btc > 0` loop in `main` is embedded with an explicit
   fuel argument (`sellLoopF`); each iteration removes one lot from the heap,
   so fuel `lots.length + 1` (used by the wrapper `sellLoop`) always suffices.
-/

/-- Python 2 `cmp` on integers. -/
def cmpZ (a b : ℤ) : Ordering :=
  if a < b then Ordering.lt else if b < a then Ordering.gt else Ordering.eq

/-- Python 2 `cmp` on strings (lexicographic). -/
def cmpS (a b : String) : Ordering :=
  if a < b then Ordering.lt else if b < a then Ordering.gt else Ordering.eq

/-- Round a rational to an integer, half-to-even: the rounding performed by
`Decimal.quantize` under the default context (ROUND_HALF_EVEN). -/
def halfEven (q : ℚ) : ℤ :=
  let n := ⌊q⌋
  if q - n < 1/2 then n
  else if 1/2 < q - n then n + 1
  else if n % 2 = 0 then n else n + 1

/-- Embeds `roundd(x, digits) = x.quantize(tenth**digits)` from the source:
quantize to `digits` decimal places with the default (half-even) rounding. -/
def roundd (x : ℚ) (digits : ℕ) : ℚ :=
  (halfEven (x * 10 ^ digits) : ℚ) / 10 ^ digits

/-- Truncation of a rational toward zero. -/
def truncQ (q : ℚ) : ℤ := if 0 ≤ q then ⌊q⌋ else ⌈q⌉

/-- Modelled from the spec, for comparison with `roundd` (claim C7): the
rounding mode the spec describes, read literally as truncation at
`digits` decimal places. -/
def spec_truncRound (x : ℚ) (digits : ℕ) : ℚ :=
  (truncQ (x * 10 ^ digits) : ℚ) / 10 ^ digits

/-- A fully populated transaction as consumed by the ledger / transfer
matcher in `main` (every numeric field present, as produced by the
normalizers for the record kinds that reach these phases). -/
structure Tx where
  timestamp : ℤ
  type : String
  btc : ℚ
  usd : ℚ
  price : Option ℚ
  fee_usd : ℚ
  fee_btc : ℚ
  id : String
deriving DecidableEq, Repr

/-- Embeds `Transaction.__cmp__`: compare by timestamp, then by id. -/
def Tx.cmp (left right : Tx) : Ordering :=
  (cmpZ left.timestamp right.timestamp).then (cmpS left.id right.id)

/-- Python `==` on transactions (old-style class with `__cmp__`):
equality holds when the comparison returns 0. Used by `list.remove`. -/
def txEq (a b : Tx) : Bool := Tx.cmp a b == Ordering.eq

/-- Embeds the `Lot` class: a remaining acquisition. `price` is derived. -/
structure Lot where
  timestamp : ℤ
  btc : ℚ
  usd : ℚ
  transaction : Tx
deriving DecidableEq, Repr

/-- Embeds `Lot.price = usd / btc` (computed in `Lot.__init__`). -/
def Lot.price (l : Lot) : ℚ := l.usd / l.btc

/-- Embeds `Lot.sell`: `None` if more than the lot is requested, otherwise a
new lot with the quantity and the proportionally rounded cost removed. -/
def Lot.sell (l : Lot) (btc : ℚ) : Option Lot :=
  if btc > l.btc then none
  else some ⟨l.timestamp, l.btc - btc, l.usd - roundd (l.price * btc) 2, l.transaction⟩

/-- The values accepted for the `--method` option. -/
inductive Method
  | fifo
  | lifo
  | lowest
  | highest
deriving DecidableEq, Repr

/-- Embeds `Lot.__cmp__`: it tests `parsed_args.method` and only handles
`fifo` and `lifo`; for any other method the Python function falls through
and implicitly returns `None`, embedded as `none`. -/
def Lot.cmp (method : Method) (left right : Lot) : Option Ordering :=
  match method with
  | Method.fifo =>
      some ((cmpZ left.timestamp right.timestamp).then (Tx.cmp left.transaction right.transaction))
  | Method.lifo =>
      some ((cmpZ right.timestamp left.timestamp).then (Tx.cmp left.transaction right.transaction))
  | Method.lowest => none
  | Method.highest => none

/-- The weak order induced by `Lot.cmp` for the methods it implements
(meaningful only for `fifo` and `lifo`, where `Lot.cmp` is total). -/
def lotLE (method : Method) (l r : Lot) : Bool :=
  match Lot.cmp method l r with
  | some Ordering.gt => false
  | _ => true

/-- Removes a minimal element (with respect to `le`) from the list: the
documented behaviour of `heapq.heappop` on the `Heap` wrapper. -/
def popMin (le : Lot → Lot → Bool) : List Lot → Option (Lot × List Lot)
  | [] => none
  | l :: rest =>
    match popMin le rest with
    | none => some (l, rest)
    | some (m, rest') => if le l m then some (l, rest) else some (m, l :: rest')

/-- The running state of the accounting loop in `main`: open lots,
`total_cost`, `total_btc` and realized `gains`. -/
structure LedgerState where
  lots : List Lot
  total_cost : ℚ
  total_btc : ℚ
  gains : ℚ
deriving DecidableEq, Repr

/-- Embeds the `while btc > 0` disposal loop of `main` (lines 404-416), with
explicit fuel. Each iteration pops the top lot; a full consumption deducts
the lot, a split pushes back `lot.sell(btc)`. Popping an empty heap raises
IndexError (`heapq.heappop` on an empty list). -/
def sellLoopF (le : Lot → Lot → Bool) :
    ℕ → List Lot → ℚ → ℚ → ℚ → Except String (List Lot × ℚ × ℚ)
  | 0, _, _, _, _ => Except.error ("loop fuel exhausted")
  | fuel + 1, lots, btc, gains, total_cost =>
    if 0 < btc then
      match popMin le lots with
      | none => Except.error ("IndexError: index out of range")
      | some (lot, rest) =>
        if lot.btc ≤ btc then
          sellLoopF le fuel rest (btc - lot.btc) (gains - lot.usd) (total_cost - lot.usd)
        else
          match lot.sell btc with
          | none => Except.error ("AttributeError: NoneType")
          | some remaining =>
            Except.ok (rest ++ [remaining],
              gains - (lot.usd - remaining.usd), total_cost - (lot.usd - remaining.usd))
    else Except.ok (lots, gains, total_cost)

/-- The disposal loop with sufficient fuel: at most one iteration per open
lot plus a terminating step. -/
def sellLoop (le : Lot → Lot → Bool) (lots : List Lot) (btc gains total_cost : ℚ) :
    Except String (List Lot × ℚ × ℚ) :=
  sellLoopF le (lots.length + 1) lots btc gains total_cost

/-- Embeds `(t.price or fmv(t.timestamp))`: Python `or` takes the oracle
value when `t.price` is falsy, i.e. `None` or zero. -/
def priceUsed (oracle : ℤ → ℚ) (t : Tx) : ℚ :=
  match t.price with
  | some p => if p = 0 then oracle t.timestamp else p
  | none => oracle t.timestamp

/-- Embeds the non-trade fiat value of `main` line 395:
`usd = roundd(-(t.price or fmv(t.timestamp)) * btc, 2)`. -/
def nonTradeUsd (oracle : ℤ → ℚ) (t : Tx) : ℚ :=
  roundd (-(priceUsed oracle t) * t.btc) 2

/-- Modelled from the spec, for comparison with `nonTradeUsd` (claim C5):
fiat value `-price_used * |btc|` where `price_used` is the transaction price
when set, else the oracle value. -/
def spec_C5_fiatValue (oracle : ℤ → ℚ) (t : Tx) : ℚ :=
  -(match t.price with
    | some p => p
    | none => oracle t.timestamp) * |t.btc|

/-- Embeds the per-transaction step of the ledger loop in `main`
(lines 389-416): compute the fiat value and asset delta, then either push a
new lot (acquisition) or run the disposal loop. -/
def processTx (le : Lot → Lot → Bool) (oracle : ℤ → ℚ) (s : LedgerState) (t : Tx) :
    Except String LedgerState :=
  let usd : ℚ := if t.type = "trade" then t.usd + t.fee_usd else nonTradeUsd oracle t
  let btc : ℚ := t.btc
  let total_btc := s.total_btc + btc
  if 0 < btc then
    Except.ok { lots := s.lots ++ [⟨t.timestamp, btc, -usd, t⟩],
                total_cost := s.total_cost - usd,
                total_btc := total_btc, gains := s.gains }
  else
    match sellLoop le s.lots (-btc) (s.gains + usd) s.total_cost with
    | Except.error e => Except.error e
    | Except.ok (lots, gains, total_cost) =>
      Except.ok { lots := lots, total_cost := total_cost,
                  total_btc := total_btc, gains := gains }

/-- Folds the ledger step over a transaction sequence, stopping at the first
fatal error (an uncaught exception aborts `main`). -/
def processTxs (le : Lot → Lot → Bool) (oracle : ℤ → ℚ) :
    LedgerState → List Tx → Except String LedgerState
  | s, [] => Except.ok s
  | s, t :: ts =>
    match processTx le oracle s t with
    | Except.error e => Except.error e
    | Except.ok s1 => processTxs le oracle s1 ts

/-- The ledger state at the start of `main`: no lots, all totals zero. -/
def initialLedger : LedgerState := ⟨[], 0, 0, 0⟩

/-- Sum of the remaining quantities of the open lots. -/
def sumBtc (lots : List Lot) : ℚ := (lots.map Lot.btc).sum

/-- Sum of the remaining cost bases of the open lots. -/
def sumUsd (lots : List Lot) : ℚ := (lots.map Lot.usd).sum

/-- Append a transaction to the list held under key `k` (defaultdict-list
append used to build the deposits index). -/
def addToIndex : List (ℚ × List Tx) → ℚ → Tx → List (ℚ × List Tx)
  | [], k, t => [(k, [t])]
  | (k0, ts) :: rest, k, t =>
    if k0 = k then (k0, ts ++ [t]) :: rest else (k0, ts) :: addToIndex rest k t

/-- Look up key `k`; missing keys give the empty list (`deposits.get(x, ())`). -/
def lookupIndex : List (ℚ × List Tx) → ℚ → List Tx
  | [], _ => []
  | (k0, ts) :: rest, k => if k0 = k then ts else lookupIndex rest k

/-- Replace the list held under key `k` (mutation of the aliased list
`matches.remove(candidate)` seen through the dict). -/
def setIndex : List (ℚ × List Tx) → ℚ → List Tx → List (ℚ × List Tx)
  | [], k, v => [(k, v)]
  | (k0, ts) :: rest, k, v =>
    if k0 = k then (k0, v) :: rest else (k0, ts) :: setIndex rest k v

/-- Embeds the deposits index built in `main` lines 356-359: every deposit
with nonzero (truthy) `btc`, keyed by its exact signed amount. -/
def depositsIndex (all : List Tx) : List (ℚ × List Tx) :=
  all.foldl (fun idx t =>
    if t.type = "deposit" ∧ t.btc ≠ 0 then addToIndex idx t.btc t else idx) []

/-- Remove the first element satisfying `p` (Python `list.remove`, which
tests `==`, i.e. `Transaction.__cmp__ == 0`); no-op when absent. -/
def removeFirst (p : Tx → Bool) : List Tx → List Tx
  | [] => []
  | t :: ts => if p t then ts else t :: removeFirst p ts

/-- Scan the candidate deposits in order and return the first within the
window: `abs(mktime(candidate) - mktime(t)) < window_hours * 3600`. -/
def findCandidate (window : ℚ) (t : Tx) : List Tx → Option Tx
  | [] => none
  | c :: cs =>
    if |(c.timestamp : ℚ) - (t.timestamp : ℚ)| < window * 3600 then some c
    else findCandidate window t cs

/-- The working state of the transfer-matching pass: the surviving
collection, the deposits index, and the advisory mismatch reports. -/
structure MatchSt where
  all : List Tx
  deposits : List (ℚ × List Tx)
  mismatches : List (Tx × List Tx)
deriving DecidableEq, Repr

/-- Embeds one iteration of the matching loop of `main` lines 362-375: for a
withdrawal with truthy `btc`, look up deposits under the negated amount;
on the first in-window candidate remove both transactions and the candidate
from the index; if candidates exist but none is in the window, record the
pair as a non-fatal mismatch report. -/
def matchStep (window : ℚ) (st : MatchSt) (t : Tx) : MatchSt :=
  if t.type = "withdraw" ∧ t.btc ≠ 0 then
    let cands := lookupIndex st.deposits (-t.btc)
    match findCandidate window t cands with
    | some c =>
      { all := removeFirst (txEq c) (removeFirst (txEq t) st.all),
        deposits := setIndex st.deposits (-t.btc) (removeFirst (txEq c) cands),
        mismatches := st.mismatches }
    | none =>
      if cands ≠ [] then { st with mismatches := st.mismatches ++ [(t, cands)] } else st
  else st

/-- Embeds the transfer-matching pass (`main` lines 356-375): build the
deposits index, then iterate over a snapshot of the collection
(`for t in list(all)`), mutating the working collection. Returns the
surviving transactions and the advisory mismatch reports. -/
def matchTransfers (window : ℚ) (all : List Tx) : List Tx × List (Tx × List Tx) :=
  let stF := all.foldl (matchStep window) ⟨all, depositsIndex all, []⟩
  (stF.all, stF.mismatches)

/-- The canonical transaction record as built by `Transaction.__init__`
(numeric fields may be absent, `decimal_or_none`). -/
structure PyTransaction where
  timestamp : ℤ
  type : String
  btc : Option ℚ
  usd : Option ℚ
  price : Option ℚ
  fee_usd : Option ℚ
  fee_btc : Option ℚ
  info : Option String
  id : String
deriving DecidableEq, Repr

/-- Embeds the price derivation of `Transaction.__init__`:
`if self.btc and self.usd and self.price is None: self.price = self.usd / self.btc`.
Python truthiness: the branch runs only when both amounts are present and
nonzero, so the division is never by zero. -/
def derivePrice (btc usd price : Option ℚ) : Option ℚ :=
  match btc, usd, price with
  | some b, some u, none => if b ≠ 0 ∧ u ≠ 0 then some (u / b) else none
  | _, _, p => p

/-- Embeds `unique()`: increment the process counter and produce a fresh
synthetic id. -/
def uniqueId (ctr : ℕ) : String × ℕ := ("unique:" ++ toString (ctr + 1), ctr + 1)

/-- Embeds `Transaction.__init__` (threading the `unique()` counter): store
the fields, derive `price` when possible, and synthesize an id if none was
supplied. -/
def mkTransaction (timestamp : ℤ) (type : String) (btc usd price fee_usd fee_btc : Option ℚ)
    (info : Option String) (id : Option String) (ctr : ℕ) : PyTransaction × ℕ :=
  let price1 := derivePrice btc usd price
  match id with
  | some i => (⟨timestamp, type, btc, usd, price1, fee_usd, fee_btc, info, i⟩, ctr)
  | none =>
    let u := uniqueId ctr
    (⟨timestamp, type, btc, usd, price1, fee_usd, fee_btc, info, u.1⟩, u.2)

/-- Does `sub` occur as a contiguous sublist of the first argument? -/
def listHasSub (sub : List Char) : List Char → Bool
  | [] => sub.isEmpty
  | c :: t => sub.isPrefixOf (c :: t) || listHasSub sub t

/-- Python `sub in s` on strings. -/
def strContains (s sub : String) : Bool := listHasSub sub.data s.data

/-- Embeds `re.search(r"tid:\d+", info)`: the first occurrence of `tid:`
followed by at least one digit, with the digit run. -/
def findTidAux : List Char → Option String
  | [] => none
  | 't' :: 'i' :: 'd' :: ':' :: rest =>
    let ds := rest.takeWhile Char.isDigit
    if ds.isEmpty then findTidAux rest else some (String.mk (['t', 'i', 'd', ':'] ++ ds))
  | _ :: rest => findTidAux rest

/-- Search a string for a `tid:` trade id. -/
def findTid (info : String) : Option String := findTidAux info.data

/-- Embeds `decimal.Decimal(s)` on the plain numeric literals occurring in
the feeds: optional sign, integer part, optional fractional part. -/
def pyDecimal (s : String) : Except String ℚ :=
  let sgn : ℚ := if s.startsWith ("-") then -1 else 1
  let body : String := if s.startsWith ("-") then s.drop 1 else s
  match body.splitOn (".") with
  | [a] =>
    match a.toNat? with
    | some n => Except.ok (sgn * (n : ℚ))
    | none => Except.error ("InvalidOperation: " ++ s)
  | [a, b] =>
    match a.toNat?, b.toNat? with
    | some n, some f => Except.ok (sgn * ((n : ℚ) + (f : ℚ) / (10 : ℚ) ^ b.length))
    | _, _ => Except.error ("InvalidOperation: " ++ s)
  | _ => Except.error ("InvalidOperation: " ++ s)

/-- One row of an MtGox ledger csv (`Index,Date,Type,Info,Value,Balance`),
with the timestamp already in seconds. -/
structure MtGoxRow where
  index : String
  timestamp : ℤ
  type : String
  info : String
  value : String
  balance : String
deriving DecidableEq, Repr

/-- An MtGox input file: its basename, its header line, and its data rows. -/
structure MtGoxFile where
  basename : String
  header : String
  rows : List MtGoxRow
deriving DecidableEq, Repr

/-- The class-level counters of `MtGoxParser`: files seen per currency. -/
structure MtGoxCounts where
  seen_btc : ℕ
  seen_usd : ℕ
deriving DecidableEq, Repr

/-- Embeds `MtGoxParser.parse_row`: dispatch on the row type, extracting the
trade id from the info text or synthesizing one. -/
def mtgoxParseRow (is_btc : Bool) (ctr : ℕ) (r : MtGoxRow) : Except String (PyTransaction × ℕ) :=
  match pyDecimal r.value with
  | Except.error e => Except.error e
  | Except.ok value =>
    let idc : Option String × ℕ :=
      match findTid r.info with
      | some i => (some i, ctr)
      | none => let u := uniqueId ctr; (some u.1, u.2)
    if r.type = "out" then
      Except.ok (mkTransaction r.timestamp ("trade") (some (-value)) (some 0) (some 0)
        (some 0) (some 0) (some r.info) idc.1 idc.2)
    else if r.type = "in" then
      Except.ok (mkTransaction r.timestamp ("trade") (some value) (some 0) (some 0)
        (some 0) (some 0) (some r.info) idc.1 idc.2)
    else if r.type = "earned" then
      Except.ok (mkTransaction r.timestamp ("trade") (some 0) (some value) (some 0)
        (some 0) (some 0) (some r.info) idc.1 idc.2)
    else if r.type = "spent" then
      Except.ok (mkTransaction r.timestamp ("trade") (some 0) (some (-value)) (some 0)
        (some 0) (some 0) (some r.info) idc.1 idc.2)
    else if r.type = "fee" then
      (if is_btc then
        Except.ok (mkTransaction r.timestamp ("fee") (some 0) (some 0) (some 0)
          (some 0) (some value) (some r.info) idc.1 idc.2)
      else
        Except.ok (mkTransaction r.timestamp ("fee") (some 0) (some 0) (some 0)
          (some value) (some 0) (some r.info) idc.1 idc.2))
    else if r.type = "withdraw" ∧ is_btc = true then
      Except.ok (mkTransaction r.timestamp ("withdraw") (some (-value)) (some 0) (some 0)
        (some 0) (some 0) (some r.info) idc.1 idc.2)
    else if r.type = "deposit" ∧ is_btc = true then
      Except.ok (mkTransaction r.timestamp ("deposit") (some value) (some 0) (some 0)
        (some 0) (some 0) (some r.info) idc.1 idc.2)
    else Except.error ("ValueError: " ++ r.type)

/-- Parse the data rows of one MtGox file in order. -/
def mtgoxParseRows (is_btc : Bool) : ℕ → List MtGoxRow → Except String (ℕ × List PyTransaction)
  | ctr, [] => Except.ok (ctr, [])
  | ctr, r :: rs =>
    match mtgoxParseRow is_btc ctr r with
    | Except.error e => Except.error e
    | Except.ok (t, ctr1) =>
      match mtgoxParseRows is_btc ctr1 rs with
      | Except.error e => Except.error e
      | Except.ok (ctr2, ts) => Except.ok (ctr2, t :: ts)

/-- Embeds `MtGoxParser.parse_file`: classify the file as the BTC or the USD
ledger from its (uppercased) basename, bump the matching counter, and parse
the rows; a basename with neither marker raises. -/
def mtgoxParseFile (counts : MtGoxCounts) (ctr : ℕ) (f : MtGoxFile) :
    Except String (MtGoxCounts × ℕ × List PyTransaction) :=
  let base := f.basename.toUpper
  if strContains base ("BTC") then
    match mtgoxParseRows true ctr f.rows with
    | Except.error e => Except.error e
    | Except.ok (ctr1, ts) => Except.ok ({ counts with seen_btc := counts.seen_btc + 1 }, ctr1, ts)
  else if strContains base ("USD") then
    match mtgoxParseRows false ctr f.rows with
    | Except.error e => Except.error e
    | Except.ok (ctr1, ts) => Except.ok ({ counts with seen_usd := counts.seen_usd + 1 }, ctr1, ts)
  else Except.error ("ValueError: mtgox must contain BTC or USD")

/-- Embeds `MtGoxParser.can_parse` via `CsvParser.can_parse`:
`re.match(expected_header, first_line.strip())`, a prefix match. -/
def mtgoxCanParse (f : MtGoxFile) : Bool :=
  (f.header.trim).startsWith ("Index,Date,Type,Info,Value,Balance")

/-- Embeds `MtGoxParser.check_complete`: raise when the number of BTC-ledger
files and USD-ledger files seen differ. -/
def mtgoxCheckComplete (counts : MtGoxCounts) : Except String Unit :=
  if counts.seen_usd ≠ counts.seen_btc then
    Except.error ("Missmatched number of BTC and USD files (" ++ toString counts.seen_btc
      ++ " vs " ++ toString counts.seen_usd ++ ")")
  else Except.ok ()

/-- The file-reading loop of `main` (lines 337-346), for a run whose input
files are all MtGox ledgers: dispatch each file to the parser that
recognizes it and accumulate the parsed transactions. The loop — and all of
`main` after it — never invokes `check_complete`. -/
def mainReadMtGoxGo : MtGoxCounts → ℕ → List PyTransaction → List MtGoxFile →
    Except String (MtGoxCounts × ℕ × List PyTransaction)
  | counts, ctr, acc, [] => Except.ok (counts, ctr, acc)
  | counts, ctr, acc, f :: fs =>
    if mtgoxCanParse f then
      match mtgoxParseFile counts ctr f with
      | Except.error e => Except.error e
      | Except.ok (counts1, ctr1, ts) => mainReadMtGoxGo counts1 ctr1 (acc ++ ts) fs
    else Except.error ("No parser for " ++ f.basename)

/-- Read a list of MtGox input files exactly as `main` does. -/
def mainReadMtGoxFiles (files : List MtGoxFile) :
    Except String (MtGoxCounts × ℕ × List PyTransaction) :=
  mainReadMtGoxGo ⟨0, 0⟩ 0 [] files

/-- The two price-feed layouts recognized by `fmv`. -/
inductive FmvFormat
  | bitcoinaverage
  | blockchain
deriving DecidableEq, Repr

/-- The loop state of the `fmv` price loader: the detected format, the loop
variable `price` (unbound until the blockchain branch first assigns it,
embedded as `Option`), and the accumulated table. -/
structure FmvSt where
  format : Option FmvFormat
  priceVar : Option String
  prices : List (String × ℚ)
deriving DecidableEq, Repr

/-- Dict assignment `prices[date] = v` (overwrite or insert). -/
def setPrice : List (String × ℚ) → String → ℚ → List (String × ℚ)
  | [], d, v => [(d, v)]
  | (d0, v0) :: rest, d, v =>
    if d0 = d then (d, v) :: rest else (d0, v0) :: setPrice rest d v

/-- Python `s.split()` with no argument: split on whitespace runs, dropping
empty pieces. -/
def pySplitWs (s : String) : List String :=
  (s.split (fun c => c.isWhitespace)).filter (fun x => x ≠ "")

/-- Embeds `re.match` of the blockchain feed row pattern
`\d\d/\d\d/\d\d\d\d \d\d:\d\d:\d\d,\d+\.\d*` (a prefix match). -/
def blockchainMatch (s : String) : Bool :=
  match s.data with
  | d1 :: d2 :: s1 :: d3 :: d4 :: s2 :: y1 :: y2 :: y3 :: y4 :: sp ::
      h1 :: h2 :: c1 :: m1 :: m2 :: c2 :: x1 :: x2 :: cm :: rest =>
    d1.isDigit && d2.isDigit && (s1 == '/') && d3.isDigit && d4.isDigit && (s2 == '/') &&
    y1.isDigit && y2.isDigit && y3.isDigit && y4.isDigit && (sp == ' ') &&
    h1.isDigit && h2.isDigit && (c1 == ':') && m1.isDigit && m2.isDigit && (c2 == ':') &&
    x1.isDigit && x2.isDigit && (cm == ',') &&
    (let ds := rest.takeWhile Char.isDigit
     !ds.isEmpty &&
       (match rest.drop ds.length with
        | dot :: _ => dot == '.'
        | [] => false))
  | _ => false

/-- Embeds the shared row-processing tail of the `fmv` loader (lines
321-328): split the stripped line on commas; in the bitcoinaverage branch
store the high/low average, in the blockchain branch compute the date and
assign the `price` variable; then — outside the branch, as in the source —
execute `prices[date] = Decimal(price)`, a NameError when `price` has never
been assigned. -/
def fmvBody (st : FmvSt) (line : String) : Except String FmvSt :=
  let cols := (line.trim).splitOn (",")
  if st.format = some FmvFormat.bitcoinaverage then
    match cols with
    | c0 :: c1 :: c2 :: _ =>
      (match pySplitWs c0 with
       | [] => Except.error ("IndexError: list index out of range")
       | d :: _ =>
         match pyDecimal c1, pyDecimal c2 with
         | Except.ok hi, Except.ok lo =>
           let prices1 := setPrice st.prices d ((hi + lo) / 2)
           (match st.priceVar with
            | none => Except.error ("NameError: name price is not defined")
            | some p =>
              match pyDecimal p with
              | Except.ok v => Except.ok { st with prices := setPrice prices1 d v }
              | Except.error e => Except.error e)
         | Except.error e, _ => Except.error e
         | _, Except.error e => Except.error e)
    | _ => Except.error ("IndexError: list index out of range")
  else
    match cols with
    | c0 :: c1 :: _ =>
      (match pySplitWs c0 with
       | [] => Except.error ("IndexError: list index out of range")
       | d0 :: _ =>
         let d := String.intercalate ("-") ((d0.splitOn ("/")).reverse)
         match pyDecimal c1 with
         | Except.ok v =>
           Except.ok { st with priceVar := some c1, prices := setPrice st.prices d v }
         | Except.error e => Except.error e)
    | _ => Except.error ("IndexError: list index out of range")

/-- Embeds one iteration of the `fmv` loader loop (lines 309-328) on a line
as yielded by file iteration (trailing newline included). Note the source
assigns `line.strip()` to the unused variable `lint` and then compares the
unstripped `line` against the bitcoinaverage header. -/
def fmvProcessLine (st : FmvSt) (line : String) : Except String FmvSt :=
  if line = "" then Except.ok st
  else
    match st.format with
    | some _ => fmvBody st line
    | none =>
      if line = "datetime,high,low,average,volume" then
        Except.ok { st with format := some FmvFormat.bitcoinaverage }
      else if blockchainMatch line then
        fmvBody { st with format := some FmvFormat.blockchain } line
      else Except.error ("Unknown format: " ++ line)

/-- Run the `fmv` price loader over the feed lines, returning the table. -/
def loadPrices : FmvSt → List String → Except String (List (String × ℚ))
  | st, [] => Except.ok st.prices
  | st, l :: ls =>
    match fmvProcessLine st l with
    | Except.ok st1 => loadPrices st1 ls
    | Except.error e => Except.error e

/-- The loader state before the first line. -/
def initialFmv : FmvSt := ⟨none, none, []⟩

/-- A constant price oracle used in concrete witnesses. -/
def exOracle : ℤ → ℚ := fun _ => 100

/-- Witness transaction: a buy of 1 for 100. -/
def exT1 : Tx := ⟨1, "trade", 1, -100, none, 0, 0, "a"⟩

/-- Witness transaction: a sale of half a unit for 75. -/
def exT2 : Tx := ⟨2, "trade", -(1/2), 75, none, 0, 0, "b"⟩

/-- Witness transaction: a withdrawal of 2 (more than held). -/
def exT3 : Tx := ⟨3, "trade", -2, 300, none, 0, 0, "c"⟩

/-- Witness withdrawal carrying an explicit nonzero price. -/
def exW50 : Tx := ⟨5, "withdraw", -1, 0, some 50, 0, 0, "w1"⟩

/-- Witness withdrawal carrying an explicit zero price. -/
def exW0 : Tx := ⟨5, "withdraw", -1, 0, some 0, 0, 0, "w2"⟩

/-- Witness deposit carrying an explicit nonzero price. -/
def exDep2 : Tx := ⟨7, "deposit", 2, 0, some 50, 0, 0, "d2"⟩

/-- Witness deposit for the transfer matcher. -/
def exDep : Tx := ⟨1000, "deposit", 3, 0, none, 0, 0, "d"⟩

/-- Witness withdrawal for the transfer matcher (equal and opposite). -/
def exWdr : Tx := ⟨4000, "withdraw", -3, 0, none, 0, 0, "w"⟩

/-- Witness lots for the policy claims. -/
def exLotA : Lot := ⟨1, 1, 100, exT1⟩

/-- A later, more expensive witness lot. -/
def exLotB : Lot := ⟨2, 1, 200, exT2⟩

/-- An MtGox BTC-ledger input file with no matching USD file. -/
def exMtGoxBtcFile : MtGoxFile :=
  ⟨"mtgox-BTC.csv", "Index,Date,Type,Info,Value,Balance", []⟩

/-- An ordering chain avoids `gt` exactly when its head is `lt`, or its head
is `eq` and its tail avoids `gt`. -/
theorem then_ne_gt (o1 o2 : Ordering) :
    o1.then o2 ≠ Ordering.gt ↔ (o1 = Ordering.lt ∨ (o1 = Ordering.eq ∧ o2 ≠ Ordering.gt)) := by
  cases o1 <;> cases o2 <;> simp [Ordering.then]

/-- An ordering chain is `eq` exactly when both parts are. -/
theorem then_eq_eq (o1 o2 : Ordering) :
    o1.then o2 = Ordering.eq ↔ (o1 = Ordering.eq ∧ o2 = Ordering.eq) := by
  cases o1 <;> cases o2 <;> simp [Ordering.then]

theorem cmpZ_lt_iff {a b : ℤ} : cmpZ a b = Ordering.lt ↔ a < b := by
  unfold cmpZ; split_ifs with h1 h2 <;> simp_all

theorem cmpZ_eq_iff {a b : ℤ} : cmpZ a b = Ordering.eq ↔ a = b := by
  unfold cmpZ; split_ifs with h1 h2 <;> simp_all <;> omega

theorem cmpS_eq_iff {a b : String} : cmpS a b = Ordering.eq ↔ a = b := by
  unfold cmpS
  split_ifs with h1 h2
  · simp only [reduceCtorEq, false_iff]
    intro h; subst h; exact lt_irrefl a h1
  · simp only [reduceCtorEq, false_iff]
    intro h; subst h; exact lt_irrefl a h2
  · simp only [true_iff]
    exact le_antisymm (not_lt.mp h2) (not_lt.mp h1)

theorem cmpS_ne_gt {a b : String} : cmpS a b ≠ Ordering.gt ↔ a ≤ b := by
  unfold cmpS
  split_ifs with h1 h2
  · exact iff_of_true (by simp) (le_of_lt h1)
  · exact iff_of_false (by simp) (not_le.mpr h2)
  · exact iff_of_true (by simp) (not_lt.mp h2)

/-- Characterization of `Transaction.__cmp__` never exceeding: timestamp
strictly earlier, or equal timestamps and id not later. -/
theorem txCmp_ne_gt {a b : Tx} :
    Tx.cmp a b ≠ Ordering.gt ↔
      (a.timestamp < b.timestamp ∨ (a.timestamp = b.timestamp ∧ a.id ≤ b.id)) := by
  unfold Tx.cmp
  rw [then_ne_gt, cmpZ_lt_iff, cmpZ_eq_iff, cmpS_ne_gt]

/-- `Transaction.__cmp__` returns 0 exactly on equal timestamp and id. -/
theorem txCmp_eq_iff {a b : Tx} :
    Tx.cmp a b = Ordering.eq ↔ (a.timestamp = b.timestamp ∧ a.id = b.id) := by
  unfold Tx.cmp
  rw [then_eq_eq, cmpZ_eq_iff, cmpS_eq_iff]

/-- Boolean equality on `Ordering` agrees with propositional equality. -/
theorem ordBeq_iff (x y : Ordering) : (x == y) = true ↔ x = y := by
  cases x <;> cases y <;> decide

theorem txEq_iff {a b : Tx} :
    txEq a b = true ↔ (a.timestamp = b.timestamp ∧ a.id = b.id) := by
  unfold txEq
  rw [ordBeq_iff, txCmp_eq_iff]

/-- `lotLE` through a computed comparison value. -/
theorem lotLE_some_iff {method : Method} {l r : Lot} {o : Ordering}
    (h : Lot.cmp method l r = some o) : lotLE method l r = true ↔ o ≠ Ordering.gt := by
  unfold lotLE
  rw [h]
  cases o <;> simp

theorem lotLE_fifo_iff {l r : Lot} :
    lotLE Method.fifo l r = true ↔
      (l.timestamp < r.timestamp ∨
        (l.timestamp = r.timestamp ∧ Tx.cmp l.transaction r.transaction ≠ Ordering.gt)) := by
  rw [lotLE_some_iff (rfl :
        Lot.cmp Method.fifo l r =
          some ((cmpZ l.timestamp r.timestamp).then (Tx.cmp l.transaction r.transaction))),
      then_ne_gt, cmpZ_lt_iff, cmpZ_eq_iff]

theorem lotLE_lifo_iff {l r : Lot} :
    lotLE Method.lifo l r = true ↔
      (r.timestamp < l.timestamp ∨
        (r.timestamp = l.timestamp ∧ Tx.cmp l.transaction r.transaction ≠ Ordering.gt)) := by
  rw [lotLE_some_iff (rfl :
        Lot.cmp Method.lifo l r =
          some ((cmpZ r.timestamp l.timestamp).then (Tx.cmp l.transaction r.transaction))),
      then_ne_gt, cmpZ_lt_iff, cmpZ_eq_iff]

theorem lotLE_fifo_total (a b : Lot) :
    lotLE Method.fifo a b = true ∨ lotLE Method.fifo b a = true := by
  rw [lotLE_fifo_iff, lotLE_fifo_iff, txCmp_ne_gt, txCmp_ne_gt]
  rcases lt_trichotomy a.timestamp b.timestamp with h | h | h
  · exact Or.inl (Or.inl h)
  · rcases lt_trichotomy a.transaction.timestamp b.transaction.timestamp with h2 | h2 | h2
    · exact Or.inl (Or.inr ⟨h, Or.inl h2⟩)
    · rcases le_total a.transaction.id b.transaction.id with h3 | h3
      · exact Or.inl (Or.inr ⟨h, Or.inr ⟨h2, h3⟩⟩)
      · exact Or.inr (Or.inr ⟨h.symm, Or.inr ⟨h2.symm, h3⟩⟩)
    · exact Or.inr (Or.inr ⟨h.symm, Or.inl h2⟩)
  · exact Or.inr (Or.inl h)

theorem lotLE_fifo_trans (a b c : Lot) (hab : lotLE Method.fifo a b = true)
    (hbc : lotLE Method.fifo b c = true) : lotLE Method.fifo a c = true := by
  rw [lotLE_fifo_iff, txCmp_ne_gt] at hab hbc ⊢
  rcases hab with h1 | ⟨h1, h1'⟩
  · rcases hbc with h2 | ⟨h2, _⟩
    · exact Or.inl (h1.trans h2)
    · exact Or.inl (h2 ▸ h1)
  · rcases hbc with h2 | ⟨h2, h2'⟩
    · exact Or.inl (h1 ▸ h2)
    · refine Or.inr ⟨h1.trans h2, ?_⟩
      rcases h1' with h3 | ⟨h3, h3'⟩
      · rcases h2' with h4 | ⟨h4, _⟩
        · exact Or.inl (h3.trans h4)
        · exact Or.inl (h4 ▸ h3)
      · rcases h2' with h4 | ⟨h4, h4'⟩
        · exact Or.inl (h3 ▸ h4)
        · exact Or.inr ⟨h3.trans h4, h3'.trans h4'⟩

theorem lotLE_lifo_total (a b : Lot) :
    lotLE Method.lifo a b = true ∨ lotLE Method.lifo b a = true := by
  rw [lotLE_lifo_iff, lotLE_lifo_iff, txCmp_ne_gt, txCmp_ne_gt]
  rcases lt_trichotomy a.timestamp b.timestamp with h | h | h
  · exact Or.inr (Or.inl h)
  · rcases lt_trichotomy a.transaction.timestamp b.transaction.timestamp with h2 | h2 | h2
    · exact Or.inl (Or.inr ⟨h.symm, Or.inl h2⟩)
    · rcases le_total a.transaction.id b.transaction.id with h3 | h3
      · exact Or.inl (Or.inr ⟨h.symm, Or.inr ⟨h2, h3⟩⟩)
      · exact Or.inr (Or.inr ⟨h, Or.inr ⟨h2.symm, h3⟩⟩)
    · exact Or.inr (Or.inr ⟨h, Or.inl h2⟩)
  · exact Or.inl (Or.inl h)

theorem lotLE_lifo_trans (a b c : Lot) (hab : lotLE Method.lifo a b = true)
    (hbc : lotLE Method.lifo b c = true) : lotLE Method.lifo a c = true := by
  rw [lotLE_lifo_iff, txCmp_ne_gt] at hab hbc ⊢
  rcases hab with h1 | ⟨h1, h1'⟩
  · rcases hbc with h2 | ⟨h2, _⟩
    · exact Or.inl (h2.trans h1)
    · exact Or.inl (h2 ▸ h1)
  · rcases hbc with h2 | ⟨h2, h2'⟩
    · exact Or.inl (h1 ▸ h2)
    · refine Or.inr ⟨h2.trans h1, ?_⟩
      rcases h1' with h3 | ⟨h3, h3'⟩
      · rcases h2' with h4 | ⟨h4, _⟩
        · exact Or.inl (h3.trans h4)
        · exact Or.inl (h4 ▸ h3)
      · rcases h2' with h4 | ⟨h4, h4'⟩
        · exact Or.inl (h3 ▸ h4)
        · exact Or.inr ⟨h3.trans h4, h3'.trans h4'⟩

/-- `popMin` yields `none` exactly on the empty heap. -/
theorem popMin_eq_none_iff (le : Lot → Lot → Bool) (lots : List Lot) :
    popMin le lots = none ↔ lots = [] := by
  cases lots with
  | nil => simp [popMin]
  | cons a as =>
    unfold popMin
    rcases popMin le as with _ | ⟨m, rest'⟩ <;> simp
    split <;> simp

/-- `popMin` removes exactly one occurrence: the input is a permutation of
the popped element consed onto the remainder. -/
theorem popMin_perm (le : Lot → Lot → Bool) :
    ∀ (lots : List Lot) (l : Lot) (rest : List Lot),
      popMin le lots = some (l, rest) → lots.Perm (l :: rest) := by
  intro lots
  induction lots with
  | nil => intro l rest h; simp [popMin] at h
  | cons a as ih =>
    intro l rest h
    unfold popMin at h
    rcases hs : popMin le as with _ | ⟨m, rest'⟩
    · rw [hs] at h
      simp only [Option.some.injEq, Prod.mk.injEq] at h
      rw [h.1, h.2] at *
    · rw [hs] at h
      simp only [] at h
      split at h
      · simp only [Option.some.injEq, Prod.mk.injEq] at h
        rw [← h.1, ← h.2]
      · simp only [Option.some.injEq, Prod.mk.injEq] at h
        rw [← h.1, ← h.2]
        exact (List.Perm.cons a (ih m rest' hs)).trans (List.Perm.swap m a rest')

/-- The element removed by `popMin` is minimal among all heap elements with
respect to any total and transitive comparator. -/
theorem popMin_min (le : Lot → Lot → Bool)
    (htot : ∀ a b, le a b = true ∨ le b a = true)
    (htrans : ∀ a b c, le a b = true → le b c = true → le a c = true) :
    ∀ (lots : List Lot) (l : Lot) (rest : List Lot),
      popMin le lots = some (l, rest) → ∀ x ∈ lots, le l x = true := by
  intro lots
  induction lots with
  | nil => intro l rest h; simp [popMin] at h
  | cons a as ih =>
    intro l rest h
    have hrefl : ∀ z, le z z = true := fun z => (htot z z).elim id id
    unfold popMin at h
    rcases hs : popMin le as with _ | ⟨m, rest'⟩
    · rw [hs] at h
      simp only [Option.some.injEq, Prod.mk.injEq] at h
      have has : as = [] := (popMin_eq_none_iff le as).mp hs
      intro x hx
      rw [← h.1]
      rcases List.mem_cons.mp hx with hx | hx
      · rw [hx]; exact hrefl a
      · rw [has] at hx; simp at hx
    · rw [hs] at h
      simp only [] at h
      split at h
      · rename_i hle
        simp only [Option.some.injEq, Prod.mk.injEq] at h
        intro x hx
        rw [← h.1]
        rcases List.mem_cons.mp hx with hx | hx
        · rw [hx]; exact hrefl a
        · exact htrans a m x hle (ih m rest' hs x hx)
      · rename_i hle
        have hma : le m a = true := by
          rcases htot a m with h1 | h1
          · exact absurd h1 hle
          · exact h1
        simp only [Option.some.injEq, Prod.mk.injEq] at h
        intro x hx
        rw [← h.1]
        rcases List.mem_cons.mp hx with hx | hx
        · rw [hx]; exact hma
        · exact ih m rest' hs x hx

theorem sumBtc_cons (l : Lot) (ls : List Lot) : sumBtc (l :: ls) = l.btc + sumBtc ls := by
  simp [sumBtc]

theorem sumUsd_cons (l : Lot) (ls : List Lot) : sumUsd (l :: ls) = l.usd + sumUsd ls := by
  simp [sumUsd]

theorem sumBtc_append (l1 l2 : List Lot) : sumBtc (l1 ++ l2) = sumBtc l1 + sumBtc l2 := by
  simp [sumBtc]

theorem sumUsd_append (l1 l2 : List Lot) : sumUsd (l1 ++ l2) = sumUsd l1 + sumUsd l2 := by
  simp [sumUsd]

theorem sumBtc_perm {l1 l2 : List Lot} (h : l1.Perm l2) : sumBtc l1 = sumBtc l2 :=
  (h.map Lot.btc).sum_eq

theorem sumUsd_perm {l1 l2 : List Lot} (h : l1.Perm l2) : sumUsd l1 = sumUsd l2 :=
  (h.map Lot.usd).sum_eq

theorem sumBtc_nonneg {lots : List Lot} (h : ∀ l ∈ lots, 0 < l.btc) : 0 ≤ sumBtc lots := by
  induction lots with
  | nil => simp [sumBtc]
  | cons a as ih =>
    rw [sumBtc_cons]
    have h1 := h a (List.mem_cons_self a as)
    have h2 := ih (fun x hx => h x (List.mem_cons_of_mem a hx))
    linarith

/-- Whenever the disposal loop succeeds, the quantity removed from the open
lots is exactly the disposed quantity, and the change in `total_cost` is
exactly the change in the summed cost bases of the open lots. -/
theorem sellLoopF_sums (le : Lot → Lot → Bool) :
    ∀ (fuel : ℕ) (lots : List Lot) (btc gains cost : ℚ) (out : List Lot × ℚ × ℚ),
      sellLoopF le fuel lots btc gains cost = Except.ok out → 0 ≤ btc →
      sumBtc out.1 = sumBtc lots - btc ∧ out.2.2 - sumUsd out.1 = cost - sumUsd lots := by
  intro fuel
  induction fuel with
  | zero => intro lots btc gains cost out h _; simp [sellLoopF] at h
  | succ fuel ih =>
    intro lots btc gains cost out h hbtc
    unfold sellLoopF at h
    split at h
    · rename_i hpos
      rcases hp : popMin le lots with _ | ⟨lot, rest⟩
      · rw [hp] at h; exact absurd h (by simp)
      · rw [hp] at h
        simp only [] at h
        have hperm := popMin_perm le lots lot rest hp
        have hsb : sumBtc lots = lot.btc + sumBtc rest := by
          rw [sumBtc_perm hperm, sumBtc_cons]
        have hsu : sumUsd lots = lot.usd + sumUsd rest := by
          rw [sumUsd_perm hperm, sumUsd_cons]
        split at h
        · rename_i hle
          have hrec := ih rest (btc - lot.btc) _ _ out h (by linarith)
          constructor
          · rw [hrec.1, hsb]; ring
          · rw [hrec.2, hsu]; ring
        · rename_i hgt
          have hsell : lot.sell btc =
              some ⟨lot.timestamp, lot.btc - btc, lot.usd - roundd (lot.price * btc) 2,
                lot.transaction⟩ := by
            unfold Lot.sell
            rw [if_neg (not_lt.mpr (le_of_lt (not_le.mp hgt)))]
          rw [hsell] at h
          simp only [Except.ok.injEq] at h
          rw [← h]
          constructor
          · simp only [sumBtc_append, sumBtc_cons]
            rw [hsb]
            simp [sumBtc]
            ring
          · simp only [sumUsd_append, sumUsd_cons]
            rw [hsu]
            simp [sumUsd]
            ring
    · rename_i hneg
      simp only [Except.ok.injEq] at h
      have hz : btc = 0 := le_antisymm (not_lt.mp hneg) hbtc
      rw [← h, hz]
      constructor
      · simp
      · ring

/-- When the disposed quantity strictly exceeds the total quantity of the
(positive) open lots, the disposal loop exhausts the heap and raises the
empty-pop IndexError. -/
theorem sellLoopF_insufficient (le : Lot → Lot → Bool) :
    ∀ (fuel : ℕ) (lots : List Lot) (btc gains cost : ℚ),
      (∀ l ∈ lots, 0 < l.btc) → sumBtc lots < btc → lots.length < fuel →
      sellLoopF le fuel lots btc gains cost = Except.error ("IndexError: index out of range") := by
  intro fuel
  induction fuel with
  | zero => intro lots btc gains cost _ _ hlen; exact absurd hlen (Nat.not_lt_zero _)
  | succ fuel ih =>
    intro lots btc gains cost hpos hsum hlen
    have h0 : 0 ≤ sumBtc lots := sumBtc_nonneg hpos
    have hbp : 0 < btc := lt_of_le_of_lt h0 hsum
    unfold sellLoopF
    rw [if_pos hbp]
    rcases hp : popMin le lots with _ | ⟨lot, rest⟩
    · rfl
    · have hperm := popMin_perm le lots lot rest hp
      have hrest_pos : ∀ l ∈ rest, 0 < l.btc :=
        fun x hx => hpos x (hperm.mem_iff.mpr (List.mem_cons_of_mem _ hx))
      have hsb : sumBtc lots = lot.btc + sumBtc rest := by
        rw [sumBtc_perm hperm, sumBtc_cons]
      have hrs : 0 ≤ sumBtc rest := sumBtc_nonneg hrest_pos
      have hle : lot.btc ≤ btc := by linarith
      simp only []
      rw [if_pos hle]
      refine ih rest (btc - lot.btc) _ _ hrest_pos (by linarith) ?_
      have hlen2 := hperm.length_eq
      simp only [List.length_cons] at hlen2
      omega

/-- One ledger step preserves the two bookkeeping identities relating the
running totals to the open lots. -/
theorem processTx_inv (le : Lot → Lot → Bool) (oracle : ℤ → ℚ) (s : LedgerState) (t : Tx)
    (s' : LedgerState) (h1 : s.total_cost = sumUsd s.lots) (h2 : s.total_btc = sumBtc s.lots)
    (h : processTx le oracle s t = Except.ok s') :
    s'.total_cost = sumUsd s'.lots ∧ s'.total_btc = sumBtc s'.lots := by
  simp only [processTx] at h
  split at h
  · rename_i hpos
    simp only [Except.ok.injEq] at h
    rw [← h]
    constructor
    · simp only [sumUsd_append, sumUsd_cons]
      simp [sumUsd, h1]
      ring
    · simp only [sumBtc_append, sumBtc_cons]
      simp [sumBtc, h2]
  · rename_i hneg
    rcases hsl : sellLoop le s.lots (-t.btc)
        (s.gains + (if t.type = "trade" then t.usd + t.fee_usd else nonTradeUsd oracle t))
        s.total_cost with e | ⟨lots1, gains1, cost1⟩
    · rw [hsl] at h; exact absurd h (by simp)
    · rw [hsl] at h
      simp only [Except.ok.injEq] at h
      have hs := sellLoopF_sums le (s.lots.length + 1) s.lots (-t.btc) _ _ (lots1, gains1, cost1)
        hsl (by linarith [not_lt.mp hneg])
      rw [← h]
      constructor
      · have := hs.2
        simp only [] at this
        rw [h1] at this
        simp only []
        linarith
      · have := hs.1
        simp only [] at this
        simp only []
        rw [h2, this]
        ring

/-- The bookkeeping identities hold after every prefix of any processed
sequence, starting from any state satisfying them. -/
theorem processTxs_inv (le : Lot → Lot → Bool) (oracle : ℤ → ℚ) :
    ∀ (txs : List Tx) (s0 s1 : LedgerState),
      s0.total_cost = sumUsd s0.lots → s0.total_btc = sumBtc s0.lots →
      processTxs le oracle s0 txs = Except.ok s1 →
      s1.total_cost = sumUsd s1.lots ∧ s1.total_btc = sumBtc s1.lots := by
  intro txs
  induction txs with
  | nil =>
    intro s0 s1 h1 h2 h
    simp only [processTxs, Except.ok.injEq] at h
    rw [← h]
    exact ⟨h1, h2⟩
  | cons t ts ih =>
    intro s0 s1 h1 h2 h
    simp only [processTxs] at h
    rcases hp : processTx le oracle s0 t with e | sm
    · rw [hp] at h; exact absurd h (by simp)
    · rw [hp] at h
      have hi := processTx_inv le oracle s0 t sm h1 h2 hp
      exact ih sm s1 hi.1 hi.2 h

/-- Claim C1: for every transaction sequence the ledger accepts, the running
`total_cost` equals the sum of the cost bases of the open lots and the
running `total_btc` equals the sum of their quantities — here proved exactly
(zero drift), which implies the claimed bound of one minimum unit per split.
Every prefix of a run is itself a sequence, so this is the claimed
after-every-step invariant. -/
theorem claim_C1 (le : Lot → Lot → Bool) (oracle : ℤ → ℚ) (txs : List Tx) (s : LedgerState)
    (h : processTxs le oracle initialLedger txs = Except.ok s) :
    s.total_cost = sumUsd s.lots ∧ s.total_btc = sumBtc s.lots :=
  processTxs_inv le oracle txs initialLedger s (by simp [initialLedger, sumUsd])
    (by simp [initialLedger, sumBtc]) h

/-- Witness for C1: a concrete buy of 1 for 100 followed by a sale of 1/2,
whose final state carries one split lot. -/
theorem claim_C1_witness :
    processTxs (lotLE Method.fifo) exOracle initialLedger [exT1, exT2] =
        Except.ok ⟨[⟨1, 1/2, 50, exT1⟩], 50, 1/2, 25⟩ ∧
      (LedgerState.total_cost ⟨[⟨1, 1/2, 50, exT1⟩], 50, 1/2, 25⟩ =
          sumUsd (LedgerState.lots ⟨[⟨1, 1/2, 50, exT1⟩], 50, 1/2, 25⟩) ∧
        LedgerState.total_btc ⟨[⟨1, 1/2, 50, exT1⟩], 50, 1/2, 25⟩ =
          sumBtc (LedgerState.lots ⟨[⟨1, 1/2, 50, exT1⟩], 50, 1/2, 25⟩)) :=
  ⟨by with_unfolding_all rfl,
    claim_C1 (lotLE Method.fifo) exOracle [exT1, exT2] ⟨[⟨1, 1/2, 50, exT1⟩], 50, 1/2, 25⟩
      (by with_unfolding_all rfl)⟩

/-- Claim C3: when a disposal exceeds the total quantity held in the open
lots, the step fails with the empty-pop IndexError; the run aborts at that
transaction, so no state (in particular no partially updated `gains` or
`total_cost`) is ever produced or reported: the error value carries no
ledger state at all. -/
theorem claim_C3 (le : Lot → Lot → Bool) (oracle : ℤ → ℚ) (s : LedgerState) (t : Tx)
    (hpos : ∀ l ∈ s.lots, 0 < l.btc) (hover : sumBtc s.lots < -t.btc) :
    processTx le oracle s t = Except.error ("IndexError: index out of range") ∧
      ∀ rest : List Tx, processTxs le oracle s (t :: rest) =
        Except.error ("IndexError: index out of range") := by
  have h0 : 0 ≤ sumBtc s.lots := sumBtc_nonneg hpos
  have hneg : t.btc < 0 := by linarith
  have hsl : sellLoop le s.lots (-t.btc)
      (s.gains + (if t.type = "trade" then t.usd + t.fee_usd else nonTradeUsd oracle t))
      s.total_cost = Except.error ("IndexError: index out of range") :=
    sellLoopF_insufficient le (s.lots.length + 1) s.lots (-t.btc) _ _ hpos hover
      (Nat.lt_succ_self _)
  have h1 : processTx le oracle s t = Except.error ("IndexError: index out of range") := by
    simp only [processTx]
    rw [if_neg (show ¬ (0:ℚ) < t.btc by linarith), hsl]
  refine ⟨h1, fun rest => ?_⟩
  simp only [processTxs]
  rw [h1]

/-- Witness for C3: one open lot of 1 unit, then a disposal of 2 units. -/
theorem claim_C3_witness :
    (∀ l ∈ [exLotA], 0 < l.btc) ∧ sumBtc [exLotA] < -exT3.btc ∧
      processTx (lotLE Method.fifo) exOracle ⟨[exLotA], 100, 1, 0⟩ exT3 =
        Except.error ("IndexError: index out of range") :=
  ⟨by with_unfolding_all decide, by with_unfolding_all decide,
    (claim_C3 (lotLE Method.fifo) exOracle ⟨[exLotA], 100, 1, 0⟩ exT3
      (by with_unfolding_all decide) (by with_unfolding_all decide)).1⟩

/-- Claim C2: under `fifo` the lot removed from the heap by the disposal
loop (`popMin`, the pop used by `sellLoopF`) has the strictly earliest
acquisition timestamp among all open lots, ties broken by comparing the
originating transactions (their timestamp, then their id, via
`Transaction.__cmp__`); under `lifo` the strictly latest, with the same
(unreversed) transaction tie-break. The selection is a pure function of the
heap contents, hence deterministic for a fixed input order. -/
theorem claim_C2 (lots : List Lot) (l : Lot) (rest : List Lot) :
    (popMin (lotLE Method.fifo) lots = some (l, rest) →
      ∀ x ∈ lots, l.timestamp < x.timestamp ∨
        (l.timestamp = x.timestamp ∧ Tx.cmp l.transaction x.transaction ≠ Ordering.gt)) ∧
    (popMin (lotLE Method.lifo) lots = some (l, rest) →
      ∀ x ∈ lots, x.timestamp < l.timestamp ∨
        (x.timestamp = l.timestamp ∧ Tx.cmp l.transaction x.transaction ≠ Ordering.gt)) := by
  constructor
  · intro h x hx
    exact lotLE_fifo_iff.mp
      (popMin_min (lotLE Method.fifo) lotLE_fifo_total lotLE_fifo_trans lots l rest h x hx)
  · intro h x hx
    exact lotLE_lifo_iff.mp
      (popMin_min (lotLE Method.lifo) lotLE_lifo_total lotLE_lifo_trans lots l rest h x hx)

/-- Witness for C2: on the heap holding the later lot before the earlier
one, fifo pops the earlier lot and lifo pops the later lot. -/
theorem claim_C2_witness :
    (∀ x ∈ [exLotB, exLotA], exLotA.timestamp < x.timestamp ∨
        (exLotA.timestamp = x.timestamp ∧
          Tx.cmp exLotA.transaction x.transaction ≠ Ordering.gt)) ∧
    (∀ x ∈ [exLotB, exLotA], x.timestamp < exLotB.timestamp ∨
        (x.timestamp = exLotB.timestamp ∧
          Tx.cmp exLotB.transaction x.transaction ≠ Ordering.gt)) :=
  ⟨(claim_C2 [exLotB, exLotA] exLotA [exLotB]).1 (by with_unfolding_all rfl),
   (claim_C2 [exLotB, exLotA] exLotB [exLotA]).2 (by with_unfolding_all rfl)⟩

/-- Claim C4 (code bug): for the advertised methods `lowest` and `highest`,
`Lot.__cmp__` falls through both branches and returns `None` for every pair
of lots — no comparison of `lot.price` (or anything else) is implemented,
so the heap cannot select by minimal or maximal acquisition price. -/
theorem claim_C4 (l r : Lot) :
    Lot.cmp Method.lowest l r = none ∧ Lot.cmp Method.highest l r = none :=
  ⟨rfl, rfl⟩

/-- Counterexample to claim C5 as stated: for a withdrawal the code computes
`roundd(-price_used * btc, 2)` with the signed `btc` (positive proceeds),
not `-price_used * |btc|`; and a transaction whose explicit price is zero is
falsy in `t.price or fmv(...)`, so the oracle price is used, not the
transaction price. Both differences are exhibited on concrete withdrawals
under the constant-100 oracle. -/
theorem claim_C5_counterexample :
    nonTradeUsd exOracle exW50 = 50 ∧ spec_C5_fiatValue exOracle exW50 = -50 ∧
      nonTradeUsd exOracle exW50 ≠ spec_C5_fiatValue exOracle exW50 ∧
      nonTradeUsd exOracle exW0 = 100 ∧ spec_C5_fiatValue exOracle exW0 = 0 ∧
      nonTradeUsd exOracle exW0 ≠ spec_C5_fiatValue exOracle exW0 := by
  with_unfolding_all decide

/-- Claim C5 amended: for every non-trade transaction reaching the ledger,
the asset delta is the signed `btc` and the fiat value used is
`roundd(-price_used * btc, 2)` where `price_used` is the transaction price
when set and nonzero, otherwise the oracle value for the transaction
timestamp: positive acquisitions push a lot costing that value, and
disposals enter the sell loop with it added to the realized gains. -/
theorem claim_C5_amended (le : Lot → Lot → Bool) (oracle : ℤ → ℚ) (s : LedgerState) (t : Tx)
    (h : t.type ≠ "trade") :
    nonTradeUsd oracle t =
        roundd (-(match t.price with
                  | some p => if p = 0 then oracle t.timestamp else p
                  | none => oracle t.timestamp) * t.btc) 2 ∧
    (0 < t.btc →
      processTx le oracle s t = Except.ok
        { lots := s.lots ++ [⟨t.timestamp, t.btc, -(nonTradeUsd oracle t), t⟩],
          total_cost := s.total_cost - nonTradeUsd oracle t,
          total_btc := s.total_btc + t.btc, gains := s.gains }) ∧
    (t.btc ≤ 0 →
      processTx le oracle s t =
        match sellLoop le s.lots (-t.btc) (s.gains + nonTradeUsd oracle t) s.total_cost with
        | Except.error e => Except.error e
        | Except.ok (lots, gains, total_cost) =>
          Except.ok { lots := lots, total_cost := total_cost,
                      total_btc := s.total_btc + t.btc, gains := gains }) := by
  refine ⟨rfl, ?_, ?_⟩
  · intro hb
    simp only [processTx, if_neg h]
    rw [if_pos hb]
  · intro hb
    simp only [processTx, if_neg h]
    rw [if_neg (not_lt.mpr hb)]

/-- Witness for the amended C5: a deposit of 2 with explicit price 50 pushes
a lot costing `roundd(-50 * 2, 2) = -100` negated, onto one existing lot. -/
theorem claim_C5_amended_witness :
    exDep2.type ≠ "trade" ∧ (0 < exDep2.btc ∧
      processTx (lotLE Method.fifo) exOracle ⟨[exLotA], 100, 1, 0⟩ exDep2 = Except.ok
        { lots := [exLotA] ++ [⟨exDep2.timestamp, exDep2.btc, -(nonTradeUsd exOracle exDep2),
            exDep2⟩],
          total_cost := 100 - nonTradeUsd exOracle exDep2,
          total_btc := 1 + exDep2.btc, gains := 0 }) :=
  ⟨by with_unfolding_all decide,
   by with_unfolding_all decide,
   (claim_C5_amended (lotLE Method.fifo) exOracle ⟨[exLotA], 100, 1, 0⟩ exDep2
      (by with_unfolding_all decide)).2.1 (by with_unfolding_all decide)⟩

/-- Counterexample to claim C7 as stated: `roundd` (Decimal.quantize under
the default context) rounds 0.019 up to 0.02 where truncation at two places
gives 0.01, and resolves the 0.125 tie to the even cent 0.12 — it is
round-half-even (banker's rounding), not a truncating rounding. -/
theorem claim_C7_counterexample :
    roundd (19/1000) 2 = 2/100 ∧ spec_truncRound (19/1000) 2 = 1/100 ∧
      roundd (19/1000) 2 ≠ spec_truncRound (19/1000) 2 ∧
      roundd (1/8) 2 = 12/100 ∧ roundd (1/8) 2 ≠ 13/100 := by
  with_unfolding_all decide

/-- Claim C10: `Transaction.__init__` derives `price = usd/btc` exactly when
both amounts are present and nonzero and no explicit price was supplied
(so the division is never by zero); in every other case the supplied price
(possibly absent) is kept unchanged. -/
theorem claim_C10 (ts : ℤ) (type : String) (btc usd price fee_usd fee_btc : Option ℚ)
    (info : Option String) (id : Option String) (ctr : ℕ) :
    (∀ b u, btc = some b → usd = some u → b ≠ 0 → u ≠ 0 → price = none →
      (mkTransaction ts type btc usd price fee_usd fee_btc info id ctr).1.price = some (u / b)) ∧
    ((btc = none ∨ btc = some 0 ∨ usd = none ∨ usd = some 0 ∨ price ≠ none) →
      (mkTransaction ts type btc usd price fee_usd fee_btc info id ctr).1.price = price) := by
  have hp : (mkTransaction ts type btc usd price fee_usd fee_btc info id ctr).1.price =
      derivePrice btc usd price := by
    unfold mkTransaction
    rcases id with _ | i <;> rfl
  constructor
  · intro b u hb hu hbz huz hpz
    rw [hp, hb, hu, hpz]
    show (if b ≠ 0 ∧ u ≠ 0 then some (u / b) else none) = some (u / b)
    rw [if_pos ⟨hbz, huz⟩]
  · intro hcase
    rw [hp]
    rcases btc with _ | b
    · rcases usd with _ | u <;> rfl
    · rcases usd with _ | u
      · rfl
      · rcases price with _ | p
        · rcases hcase with h | h | h | h | h
          · exact absurd h (by simp)
          · simp only [Option.some.injEq] at h
            rw [h]
            show (if (0:ℚ) ≠ 0 ∧ u ≠ 0 then some (u / 0) else none) = none
            rw [if_neg]
            intro hcc
            exact hcc.1 rfl
          · exact absurd h (by simp)
          · simp only [Option.some.injEq] at h
            rw [h]
            show (if b ≠ 0 ∧ (0:ℚ) ≠ 0 then some (0 / b) else none) = none
            rw [if_neg]
            intro hcc
            exact hcc.2 rfl
          · exact absurd rfl h
        · rfl

/-- Witness for C10: a derivation case and a keep-the-supplied-price case. -/
theorem claim_C10_witness :
    (mkTransaction 0 ("trade") (some 2) (some 10) none (some 0) (some 0) none (some ("x"))
        0).1.price = some (10 / 2) ∧
    (mkTransaction 0 ("trade") (some 0) (some 10) none (some 0) (some 0) none (some ("x"))
        0).1.price = none :=
  ⟨(claim_C10 0 ("trade") (some 2) (some 10) none (some 0) (some 0) none (some ("x")) 0).1
      2 10 rfl rfl (by with_unfolding_all decide) (by with_unfolding_all decide) rfl,
   (claim_C10 0 ("trade") (some 0) (some 10) none (some 0) (some 0) none (some ("x")) 0).2
      (Or.inr (Or.inl rfl))⟩

set_option maxRecDepth 4000 in
/-- Claim C8 (code bug): on a well-formed bitcoinaverage-layout feed, as
iterated by `for line in open(url)` (lines carry their trailing newline),
the loader raises `Unknown format` at the very first line: the source strips
the line into the unused variable `lint` and compares the unstripped `line`
against the header, so the bitcoinaverage header is never recognized and the
first query fails instead of loading the table. (Even with stripped lines
the layout would fail on the first data row: `prices[date] =
Decimal(price)` is executed outside the layout branch, where `price` is
unbound in this layout — see `fmvBody`.) -/
theorem claim_C8 :
    loadPrices initialFmv
        [("datetime,high,low,average,volume\n"), ("2013-01-01 00:00:00,110,90,100,5\n")] =
      Except.error ("Unknown format: datetime,high,low,average,volume\n") ∧
    fmvBody ⟨some FmvFormat.bitcoinaverage, none, []⟩ ("2013-01-01 00:00:00,110,90,100,5\n") =
      Except.error ("NameError: name price is not defined") := by
  constructor
  · with_unfolding_all rfl
  · with_unfolding_all rfl

set_option maxRecDepth 4000 in
/-- Claim C9 (code bug): `main` never calls `check_complete` — a run whose
inputs are a single MtGox BTC-ledger file (and no USD file) reads the files
successfully and proceeds to accounting, even though
`MtGoxParser.check_complete` on the resulting counts would raise the
mismatched-file-count error the claim requires. -/
theorem claim_C9 :
    mainReadMtGoxFiles [exMtGoxBtcFile] = Except.ok (⟨1, 0⟩, 0, []) ∧
    mtgoxCheckComplete ⟨1, 0⟩ =
      Except.error ("Missmatched number of BTC and USD files (1 vs 0)") := by
  constructor
  · with_unfolding_all rfl
  · with_unfolding_all rfl

/-- `halfEven` rounds to an integer at distance at most one half, and at an
exact half-tie it picks the even integer. -/
theorem halfEven_spec (q : ℚ) :
    |((halfEven q : ℤ) : ℚ) - q| ≤ 1/2 ∧
      (|((halfEven q : ℤ) : ℚ) - q| = 1/2 → halfEven q % 2 = 0) := by
  have h1 : ((⌊q⌋ : ℤ) : ℚ) ≤ q := Int.floor_le q
  have h2 : q < ((⌊q⌋ : ℤ) : ℚ) + 1 := Int.lt_floor_add_one q
  simp only [halfEven]
  split_ifs with hc1 hc2 hc3
  · constructor
    · rw [abs_of_nonpos (by linarith)]
      linarith
    · intro habs
      rw [abs_of_nonpos (by linarith)] at habs
      linarith
  · constructor
    · rw [abs_of_nonneg (by push_cast; linarith)]
      push_cast
      linarith
    · intro habs
      rw [abs_of_nonneg (by push_cast; linarith)] at habs
      push_cast at habs
      linarith
  · constructor
    · rw [abs_of_nonpos (by linarith)]
      linarith
    · intro _
      exact hc3
  · constructor
    · rw [abs_of_nonneg (by push_cast; linarith)]
      push_cast
      linarith
    · intro _
      omega

/-- Claim C7 amended: every `roundd _ 2` value (in particular the sold cost
basis in `Lot.sell`) is a whole number of cents at distance at most half a
cent from the exact value, and an exact half-cent tie is resolved to an even
number of cents: `roundd` is round-half-even (the `Decimal.quantize`
default, banker's rounding), not a truncating rounding. -/
theorem claim_C7_amended (x : ℚ) :
    (∃ n : ℤ, roundd x 2 = (n : ℚ) / 100) ∧
    |roundd x 2 - x| ≤ 1 / 200 ∧
    (|roundd x 2 - x| = 1 / 200 → ∃ k : ℤ, roundd x 2 = ((2 * k : ℤ) : ℚ) / 100) := by
  have hs := halfEven_spec (x * 10 ^ 2)
  have hb : ((10:ℚ) ^ 2) ≠ 0 := by norm_num
  have e1 : roundd x 2 - x = (((halfEven (x * 10 ^ 2) : ℤ) : ℚ) - x * 10 ^ 2) / 10 ^ 2 := by
    unfold roundd
    field_simp
    ring
  have e2 : |roundd x 2 - x| = |((halfEven (x * 10 ^ 2) : ℤ) : ℚ) - x * 10 ^ 2| / 100 := by
    rw [e1, abs_div]
    norm_num
  refine ⟨⟨halfEven (x * 10 ^ 2), by unfold roundd; norm_num⟩, ?_, ?_⟩
  · rw [e2]
    linarith [hs.1]
  · intro htie
    rw [e2] at htie
    have htie2 : |((halfEven (x * 10 ^ 2) : ℤ) : ℚ) - x * 10 ^ 2| = 1/2 := by linarith
    have hmod := hs.2 htie2
    obtain ⟨k, hk⟩ := Int.dvd_of_emod_eq_zero hmod
    refine ⟨k, ?_⟩
    unfold roundd
    rw [hk]
    norm_num

/-- Witness for the amended C7: 0.125 is a half-cent tie, resolved to the
even 12 cents. -/
theorem claim_C7_amended_witness :
    |roundd (1/8) 2 - 1/8| = 1 / 200 ∧
      ∃ k : ℤ, roundd (1/8) 2 = ((2 * k : ℤ) : ℚ) / 100 :=
  ⟨by with_unfolding_all decide,
   (claim_C7_amended (1/8)).2.2 (by with_unfolding_all decide)⟩

/-- Claim C6: transfer matching is symmetric. For a deposit `d` and a
withdrawal `w` with nonzero, exactly equal-and-opposite amounts (and
distinct ids), if their absolute timestamp difference is strictly inside the
configured window then both transactions are removed from the collection —
in either collection order — and no mismatch is reported; otherwise neither
is removed and the pair is surfaced as a non-fatal mismatch report
`(w, [d])` for review. -/
theorem claim_C6 (window : ℚ) (d w : Tx)
    (hd : d.type = "deposit") (hw : w.type = "withdraw")
    (hbtc : d.btc = -w.btc) (hnz : d.btc ≠ 0) (hid : d.id ≠ w.id) :
    (|(d.timestamp : ℚ) - (w.timestamp : ℚ)| < window * 3600 →
      matchTransfers window [d, w] = ([], []) ∧ matchTransfers window [w, d] = ([], [])) ∧
    (¬ |(d.timestamp : ℚ) - (w.timestamp : ℚ)| < window * 3600 →
      matchTransfers window [d, w] = ([d, w], [(w, [d])]) ∧
        matchTransfers window [w, d] = ([w, d], [(w, [d])])) := by
  have hwz : ¬ w.btc = 0 := fun h => hnz (by rw [hbtc, h, neg_zero])
  have ewd : txEq w d = false := by
    cases h : txEq w d
    · rfl
    · exact absurd ((txEq_iff.mp h).2.symm) hid
  have edw : txEq d w = false := by
    cases h : txEq d w
    · rfl
    · exact absurd ((txEq_iff.mp h).2) hid
  have eww : txEq w w = true := txEq_iff.mpr ⟨rfl, rfl⟩
  have edd : txEq d d = true := txEq_iff.mpr ⟨rfl, rfl⟩
  have hidx2 : depositsIndex [d, w] = [(d.btc, [d])] := by
    simp [depositsIndex, addToIndex, hd, hw, hnz]
  have hidx2b : depositsIndex [w, d] = [(d.btc, [d])] := by
    simp [depositsIndex, addToIndex, hd, hw, hnz]
  constructor
  · intro hwin
    constructor
    · simp only [matchTransfers, hidx2, List.foldl_cons, List.foldl_nil]
      simp [matchStep, hd, hw, hbtc, hwz, neg_eq_zero, lookupIndex, findCandidate,
        removeFirst, setIndex, hwin, ewd, edw, eww, edd]
    · simp only [matchTransfers, hidx2b, List.foldl_cons, List.foldl_nil]
      simp [matchStep, hd, hw, hbtc, hwz, neg_eq_zero, lookupIndex, findCandidate,
        removeFirst, setIndex, hwin, ewd, edw, eww, edd]
  · intro hwin
    constructor
    · simp only [matchTransfers, hidx2, List.foldl_cons, List.foldl_nil]
      simp [matchStep, hd, hw, hbtc, hwz, neg_eq_zero, lookupIndex, findCandidate,
        removeFirst, setIndex, hwin, ewd, edw, eww, edd]
    · simp only [matchTransfers, hidx2b, List.foldl_cons, List.foldl_nil]
      simp [matchStep, hd, hw, hbtc, hwz, neg_eq_zero, lookupIndex, findCandidate,
        removeFirst, setIndex, hwin, ewd, edw, eww, edd]

/-- Witness for C6: a deposit of 3 at t=1000 and a withdrawal of 3 at
t=4000 match inside a 24-hour window (both orders), and with a half-hour
window they do not match and are reported. -/
theorem claim_C6_witness :
    (|(exDep.timestamp : ℚ) - (exWdr.timestamp : ℚ)| < 24 * 3600 ∧
      matchTransfers 24 [exDep, exWdr] = ([], []) ∧
        matchTransfers 24 [exWdr, exDep] = ([], [])) ∧
    (¬ |(exDep.timestamp : ℚ) - (exWdr.timestamp : ℚ)| < (1/2) * 3600 ∧
      matchTransfers (1/2) [exDep, exWdr] = ([exDep, exWdr], [(exWdr, [exDep])]) ∧
        matchTransfers (1/2) [exWdr, exDep] = ([exWdr, exDep], [(exWdr, [exDep])])) :=
  ⟨⟨by with_unfolding_all decide,
    (claim_C6 24 exDep exWdr (by with_unfolding_all decide) (by with_unfolding_all decide)
      (by with_unfolding_all decide) (by with_unfolding_all decide)
      (by with_unfolding_all decide)).1 (by with_unfolding_all decide)⟩,
   ⟨by with_unfolding_all decide,
    (claim_C6 (1/2) exDep exWdr (by with_unfolding_all decide) (by with_unfolding_all decide)
      (by with_unfolding_all decide) (by with_unfolding_all decide)
      (by with_unfolding_all decide)).2 (by with_unfolding_all decide)⟩⟩
